import Mathlib

/-!
Verification of the `diener update` manifest rewrite engine
(`src/update.rs`) against its specification.

The source is shallowly embedded: the `toml_edit` inline table that a
dependency entry lives in is modelled as an ordered association list of
string keys to decorated values; the external collaborators (the
`git_url_parse` URL parser, the HTTP client / filesystem behind
`get_package_version`, and the `Path::exists` filesystem query) are
parameters of the embedded functions, so every theorem quantifies over
their behaviour.
-/

set_option autoImplicit false

namespace Diener

/-- A `toml_edit::Value` as far as the rewriter observes it: either a
string scalar or some other shape (`as_str` returns `none` on the
latter), together with its decoration (the whitespace printed before
and after the value, set by `Value::decorated(pre, suf)`). -/
inductive ValueCore where
  | str (s : String)
  | nonStr
  deriving DecidableEq, Repr

/-- A decorated value. -/
structure Value where
  core : ValueCore
  pre : String
  suf : String
  deriving DecidableEq, Repr

/-- `Value::as_str`. -/
def Value.as_str : Value → Option String
  | ⟨ValueCore.str s, _, _⟩ => some s
  | _ => none

/-- Shorthand for a string value decorated with `pre`/`suf`. -/
def strVal (s pre suf : String) : Value := ⟨ValueCore.str s, pre, suf⟩

@[simp] theorem as_str_strVal (s pre suf : String) : (strVal s pre suf).as_str = some s := rfl

/-- A `toml_edit::InlineTable`: an ordered list of key/value pairs.
`toml_edit` guarantees key uniqueness; the operations below match its
behaviour on such tables. -/
abbrev InlineTable := List (String × Value)

/-- `InlineTable::get`: the value of the first pair with the given key. -/
def tget : InlineTable → String → Option Value
  | [], _ => none
  | (k', v) :: t, k => if k' = k then some v else tget t k

/-- `InlineTable::remove`: drop the pairs with the given key. -/
def tremove : InlineTable → String → InlineTable
  | [], _ => []
  | (k', v) :: t, k => if k' = k then tremove t k else (k', v) :: tremove t k

/-- `*table.get_or_insert(k, …) = v`: replace the value at `k` in place
when the key is present, otherwise append the pair at the end. -/
def tset : InlineTable → String → Value → InlineTable
  | [], k, v => [(k, v)]
  | (k', v') :: t, k, v => if k' = k then (k, v) :: t else (k', v') :: tset t k v

@[simp] theorem tget_nil (k : String) : tget [] k = none := rfl

theorem tget_tset_same (t : InlineTable) (k : String) (v : Value) :
    tget (tset t k v) k = some v := by
  induction t with
  | nil => simp [tset, tget]
  | cons p t ih =>
    by_cases h : p.1 = k
    · simp [tset, h, tget]
    · simp [tset, h, tget, ih]

theorem tget_tset_ne (t : InlineTable) (k k' : String) (v : Value) (h : k ≠ k') :
    tget (tset t k v) k' = tget t k' := by
  induction t with
  | nil => simp [tset, tget, h]
  | cons p t ih =>
    by_cases hp : p.1 = k
    · simp [tset, hp, tget, h]
    · simp [tset, hp, tget, ih]

theorem tget_tremove_same (t : InlineTable) (k : String) :
    tget (tremove t k) k = none := by
  induction t with
  | nil => simp [tremove, tget]
  | cons p t ih =>
    obtain ⟨k', v⟩ := p
    by_cases hp : k' = k
    · simpa [tremove, hp] using ih
    · simpa [tremove, hp, tget] using ih

theorem tget_tremove_ne (t : InlineTable) (k k' : String) (h : k ≠ k') :
    tget (tremove t k) k' = tget t k' := by
  induction t with
  | nil => simp [tremove, tget]
  | cons p t ih =>
    obtain ⟨q, v⟩ := p
    have h' : ¬(k' = k) := fun e => h e.symm
    by_cases hp : q = k
    · simpa [tremove, hp, tget, h] using ih
    · by_cases hq : q = k'
      · simp [tremove, hp, tget, hq, h']
      · simpa [tremove, hp, tget, hq] using ih

theorem tremove_tremove_self (t : InlineTable) (k : String) :
    tremove (tremove t k) k = tremove t k := by
  induction t with
  | nil => simp [tremove]
  | cons p t ih =>
    obtain ⟨q, v⟩ := p
    by_cases hp : q = k
    · simpa [tremove, hp] using ih
    · simpa [tremove, hp] using ih

theorem tremove_comm (t : InlineTable) (k k' : String) :
    tremove (tremove t k) k' = tremove (tremove t k') k := by
  by_cases hkk : k = k'
  · rw [hkk]
  · have hkk' : ¬(k' = k) := fun e => hkk e.symm
    induction t with
    | nil => simp [tremove]
    | cons p t ih =>
      obtain ⟨q, v⟩ := p
      by_cases hp : q = k <;> by_cases hq : q = k' <;>
        simp [tremove, hp, hq, hkk, hkk', ih]

theorem tremove_tset_self (t : InlineTable) (k : String) (v : Value) :
    tremove (tset t k v) k = tremove t k := by
  induction t with
  | nil => simp [tset, tremove]
  | cons p t ih =>
    obtain ⟨q, w⟩ := p
    by_cases hp : q = k
    · simp [tset, tremove, hp]
    · simp [tset, tremove, hp, ih]

theorem tremove_tset_ne (t : InlineTable) (k k' : String) (v : Value) (h : k ≠ k') :
    tremove (tset t k v) k' = tset (tremove t k') k v := by
  induction t with
  | nil => simp [tset, tremove, h]
  | cons p t ih =>
    obtain ⟨q, w⟩ := p
    have h' : ¬(k' = k) := fun e => h e.symm
    by_cases hp : q = k
    · simp [tset, tremove, hp, h, h']
    · by_cases hq : q = k'
      · simp [tset, tremove, hp, hq, h, h', ih]
      · simp [tset, tremove, hp, hq, ih]

theorem tset_self_of_tget (t : InlineTable) (k : String) (v : Value)
    (h : tget t k = some v) : tset t k v = t := by
  induction t with
  | nil => simp [tget] at h
  | cons p t ih =>
    by_cases hp : p.1 = k
    · simp only [tget, if_pos hp] at h
      cases h
      cases p
      simp_all [tset]
    · simp only [tget, if_neg hp] at h
      simp [tset, hp, ih h]

/-! ## The data model of `src/update.rs` -/

/-- `enum Rewrite`: which dependencies should be rewritten. -/
inductive Rewrite where
  | All
  | Substrate (new_git : Option String)
  | Polkadot (new_git : Option String)
  | Cumulus (new_git : Option String)
  | Beefy (new_git : Option String)
  deriving DecidableEq, Repr

/-- `enum VersionSource`: the different sources `Version` can be
generated from. -/
inductive VersionSource where
  | CratesIO
  | Url (url : String)
  | File (path : String)
  deriving DecidableEq, Repr

/-- `enum Key`: the version the dependencies should be switched to. -/
inductive Key where
  | Tag (s : String)
  | Branch (s : String)
  | Rev (s : String)
  | Version (src : VersionSource)
  deriving DecidableEq, Repr

/-- The result of `git_url_parse::GitUrl::parse`, as far as the
rewriter observes it: only the repository-name component `name` is
consulted.  The parser itself is an external collaborator, so the
embedded functions take a `parse : String → Option GitUrl` parameter. -/
structure GitUrl where
  name : String
  deriving DecidableEq, Repr

/-- `fn is_git_source(key: &Key) -> bool`. -/
def is_git_source : Key → Bool
  | Key.Tag _ | Key.Branch _ | Key.Rev _ => true
  | _ => false

/-- The `match rewrite` in `handle_dependency`: `some new_git` when the
classified repository name makes the entry eligible (`new_git` is the
optional replacement URL carried by the target), `none` when the wildcard
arm `_ => return Ok(())` is taken. -/
def matchRewrite (rewrite : Rewrite) (git : GitUrl) : Option (Option String) :=
  match rewrite with
  | Rewrite.All => some none
  | Rewrite.Substrate new_git => if git.name = "substrate" then some new_git else none
  | Rewrite.Polkadot new_git => if git.name = "polkadot" then some new_git else none
  | Rewrite.Cumulus new_git => if git.name = "cumulus" then some new_git else none
  | Rewrite.Beefy new_git => if git.name = "grandpa-bridge-gadget" then some new_git else none

/-- The effective package name consulted by the `Key::Version` arm: the
entry's `package` field when present as a string, else the dependency's
table key `name`. -/
def effectivePackage (dep : InlineTable) (name : String) : String :=
  match (tget dep "package").bind Value.as_str with
  | some package_name => package_name
  | none => name

/-- The trailing `match key { … }` of `handle_dependency`: sets the field
named by the key.  Returns the entry's state after the match together
with the returned `Result<()>`: in the `Version` arm the entry is not
rolled back when the resolver fails, so the state already holds the
mutations performed before the failure.  `resolve` models
`get_package_version` (the HTTP client / filesystem collaborators live
behind it). -/
def apply_key (resolve : String → VersionSource → Except String String)
    (name : String) (dep : InlineTable) (key : Key) :
    InlineTable × Except String Unit :=
  match key with
  | Key.Tag tag => (tset dep "tag" (strVal tag " " " "), Except.ok ())
  | Key.Branch branch => (tset dep "branch" (strVal branch " " " "), Except.ok ())
  | Key.Rev rev => (tset dep "rev" (strVal rev " " " "), Except.ok ())
  | Key.Version source =>
    match resolve (effectivePackage dep name) source with
    | Except.error e => (dep, Except.error e)
    | Except.ok version => (tset dep "version" (strVal version " " " "), Except.ok ())

/-- `fn handle_dependency(name, dep, rewrite, key) -> Result<()>`: the
dependency rewriter.  `dep` is mutated in place through a `&mut`
reference, so the model returns the entry's final state paired with the
function's `Result`: the mutations performed before a resolver failure
(the unconditional `version`/`path` removals of the `Version` branch)
persist on the error path. -/
def handle_dependency_state (parse : String → Option GitUrl)
    (resolve : String → VersionSource → Except String String)
    (name : String) (dep : InlineTable) (rewrite : Rewrite) (key : Key) :
    InlineTable × Except String Unit :=
  if is_git_source key then
    let dep := tremove (tremove (tremove dep "tag") "branch") "rev"
    match ((tget dep "git").bind Value.as_str).bind parse with
    | none => (dep, Except.ok ())
    | some git =>
      match matchRewrite rewrite git with
      | none => (dep, Except.ok ())
      | some new_git =>
        let dep := match new_git with
          | some new_git => tset dep "git" (strVal new_git " " "")
          | none => dep
        apply_key resolve name dep key
  else
    let dep := tremove (tremove dep "version") "path"
    apply_key resolve name dep key

/-- The successful-call view of the rewriter: `ok` with the entry's
final state when the call returns `Ok(())`, the propagated resolver
error otherwise. -/
def handle_dependency (parse : String → Option GitUrl)
    (resolve : String → VersionSource → Except String String)
    (name : String) (dep : InlineTable) (rewrite : Rewrite) (key : Key) :
    Except String InlineTable :=
  match handle_dependency_state parse resolve name dep rewrite key with
  | (dep', Except.ok _) => Except.ok dep'
  | (_, Except.error e) => Except.error e

/-! ## Version sources (`get_version_source`) -/

/-- `charsStartWith s p`: the character list `p` is an initial segment
of `s` (the semantics of Rust's `str::starts_with`). -/
def charsStartWith : List Char → List Char → Bool
  | _, [] => true
  | [], _ :: _ => false
  | a :: s, b :: p => a = b && charsStartWith s p

/-- Rust's `str::starts_with` on strings. -/
def strStartsWith (s pat : String) : Bool :=
  charsStartWith s.toList pat.toList

/-- Split a character list at every occurrence of `c`. -/
def splitChars (c : Char) : List Char → List (List Char)
  | [] => [[]]
  | a :: rest =>
    match splitChars c rest with
    | [] => if a = c then [[], []] else [[a]]
    | h :: t => if a = c then [] :: h :: t else (a :: h) :: t

/-- `std::path::Path::file_name` for the Unix paths this tool handles:
the last non-empty, non-`.` component of the `/`-separated path, and
`none` when that component is `..` or there is none. -/
def pathFileName (p : String) : Option String :=
  let comps := ((splitChars '/' p.toList).map String.mk).filter
    (fun c => c ≠ "" ∧ c ≠ ".")
  match comps.getLast? with
  | none => none
  | some c => if c = ".." then none else some c

/-- `fn get_version_source(version) -> Result<VersionSource>`.  The
`Path::exists` filesystem query is the external parameter `fsExists`. -/
def get_version_source (fsExists : String → Bool) (version : String) :
    Except String VersionSource :=
  if strStartsWith version "http://" || strStartsWith version "https://" then
    Except.ok (VersionSource.Url version)
  else if fsExists version && pathFileName version == some "Cargo.lock" then
    Except.ok (VersionSource.File version)
  else if version = "latest" then
    Except.ok VersionSource.CratesIO
  else
    Except.error ("Invalid 'version' source: " ++ version)

/-! ## Lockfile scan (`get_package_version_from_cargo_lock_file`) -/

/-- One `[[package]]` record of a parsed `Cargo.lock`, as far as the
scan observes it: the `as_str` of its `name` and `version` fields
(`none` when the field is missing or not a string).  The TOML parse
itself is the external `toml_edit` collaborator. -/
structure LockPackage where
  name : Option String
  version : Option String
  deriving DecidableEq, Repr

/-- The scan loop of `fn get_package_version_from_cargo_lock_file`,
over the parsed `package` array-of-tables. -/
def get_package_version_from_cargo_lock_file :
    List LockPackage → String → Option String
  | [], _ => none
  | p :: rest, package_name =>
    match p.name with
    | some name =>
      if name = package_name then
        match p.version with
        | some version => some version
        | none => get_package_version_from_cargo_lock_file rest package_name
      else get_package_version_from_cargo_lock_file rest package_name
    | none => get_package_version_from_cargo_lock_file rest package_name

/-! ## C4: lockfile scan semantics -/

/-- C4, counterexample to the claim as stated.  The claim says the scan
"returns the version of the first record whose name equals the requested
name".  For a lockfile whose first `foo` record carries no (string)
`version` field, the first record whose name equals `"foo"` has no
version — yet the scan does not stop there: it keeps scanning and
returns the version of a later matching record. -/
theorem lockfile_scan_not_first_name_match :
    get_package_version_from_cargo_lock_file
        [⟨some "foo", none⟩, ⟨some "foo", some "2.0.0"⟩] "foo" = some "2.0.0" ∧
    (([(⟨some "foo", none⟩ : LockPackage), ⟨some "foo", some "2.0.0"⟩].find?
        (fun r => r.name == some "foo")).bind (fun r => r.version)) = none := by
  exact ⟨rfl, rfl⟩

/-- C4, amended: the scan iterates the package records in document order
and returns the version of the first record whose name equals the
requested name *and which carries a string version*; it returns `none`
(`NotFound`) when no matching record carries a version.  In particular,
for two `foo` records with versions `1.0.0` then `1.1.0`, resolving
`foo` returns `1.0.0`. -/
theorem lockfile_scan_first_match_with_version :
    (∀ (doc : List LockPackage) (n : String),
      get_package_version_from_cargo_lock_file doc n =
        (doc.find? (fun r => r.name == some n && r.version.isSome)).bind
          (fun r => r.version)) ∧
    get_package_version_from_cargo_lock_file
        [⟨some "foo", some "1.0.0"⟩, ⟨some "foo", some "1.1.0"⟩] "foo" = some "1.0.0" := by
  constructor
  · intro doc n
    induction doc with
    | nil => rfl
    | cons p rest ih =>
      obtain ⟨pn, pv⟩ := p
      cases pn with
      | none => simpa [get_package_version_from_cargo_lock_file, List.find?] using ih
      | some name =>
        by_cases hn : name = n
        · have hb : (name == n) = true := by simp [hn]
          cases pv with
          | none =>
            simpa [get_package_version_from_cargo_lock_file, hn, hb, List.find?] using ih
          | some ver =>
            simp [get_package_version_from_cargo_lock_file, hn, hb, List.find?]
        · have hb : (name == n) = false := by simp [hn]
          simpa [get_package_version_from_cargo_lock_file, hn, hb, List.find?] using ih
  · rfl

/-! ## C5: version-source derivation -/

/-- C5, counterexample to the claim as stated.  The claim says the
derivation yields `LocalLockfile` *exactly when* the string is a
filesystem path that exists and whose file name is `Cargo.lock`.  The
string `"http://a/Cargo.lock"` can name an existing path whose file name
is `Cargo.lock` (a directory literally named `http:`), yet because the
HTTP(S)-scheme check runs first the derivation yields `RemoteLockfile`,
not `LocalLockfile`. -/
theorem version_source_not_local_despite_lockfile_path :
    (fun _ : String => true) "http://a/Cargo.lock" = true ∧
    pathFileName "http://a/Cargo.lock" = some "Cargo.lock" ∧
    get_version_source (fun _ => true) "http://a/Cargo.lock" =
      Except.ok (VersionSource.Url "http://a/Cargo.lock") ∧
    Except.ok (VersionSource.Url "http://a/Cargo.lock") ≠
      (Except.ok (VersionSource.File "http://a/Cargo.lock") : Except String VersionSource) := by
  refine ⟨rfl, by decide, rfl, fun h => by simp at h⟩

/-- C5, amended: the derivation yields `Registry` exactly when the
string is `"latest"`, `RemoteLockfile` exactly when the string begins
with `http://` or `https://`, `LocalLockfile` exactly when the string
does **not** begin with an HTTP(S) scheme and is a filesystem path that
exists and whose file name is exactly `Cargo.lock`, and a validation
error in every other case. -/
theorem get_version_source_cases (fsExists : String → Bool) (version : String) :
    (get_version_source fsExists version = Except.ok (VersionSource.Url version) ↔
      (strStartsWith version "http://" = true ∨ strStartsWith version "https://" = true)) ∧
    (get_version_source fsExists version = Except.ok (VersionSource.File version) ↔
      (¬(strStartsWith version "http://" = true ∨ strStartsWith version "https://" = true) ∧
        fsExists version = true ∧ pathFileName version = some "Cargo.lock")) ∧
    (get_version_source fsExists version = Except.ok VersionSource.CratesIO ↔
      version = "latest") ∧
    ((∃ e, get_version_source fsExists version = Except.error e) ↔
      (¬(strStartsWith version "http://" = true ∨ strStartsWith version "https://" = true) ∧
        ¬(fsExists version = true ∧ pathFileName version = some "Cargo.lock") ∧
        version ≠ "latest")) := by
  by_cases h1 : (strStartsWith version "http://" || strStartsWith version "https://") = true
  · have h1' : strStartsWith version "http://" = true ∨ strStartsWith version "https://" = true := by
      simpa [Bool.or_eq_true] using h1
    have hlatest : version ≠ "latest" := by
      rintro rfl
      rcases h1' with h | h <;> exact absurd h (by decide)
    refine ⟨?_, ?_, ?_, ?_⟩ <;> simp [get_version_source, h1, h1', hlatest]
  · have h1' : ¬(strStartsWith version "http://" = true ∨ strStartsWith version "https://" = true) := by
      simpa [Bool.or_eq_true] using h1
    by_cases h2 : (fsExists version && pathFileName version == some "Cargo.lock") = true
    · have h2' : fsExists version = true ∧ pathFileName version = some "Cargo.lock" := by
        simpa [Bool.and_eq_true, beq_iff_eq] using h2
      have hlatest : version ≠ "latest" := by
        rintro rfl
        have hv := h2'.2
        rw [show pathFileName "latest" = some "latest" from by decide] at hv
        exact absurd hv (by simp)
      refine ⟨?_, ?_, ?_, ?_⟩ <;> simp [get_version_source, h1, h2, h1', h2', hlatest]
    · have h2' : ¬(fsExists version = true ∧ pathFileName version = some "Cargo.lock") := by
        simpa [Bool.and_eq_true, beq_iff_eq] using h2
      by_cases h3 : version = "latest"
      · subst h3
        refine ⟨?_, ?_, ?_, ?_⟩ <;> simp [get_version_source, h1, h2, h1', h2']
      · refine ⟨?_, ?_, ?_, ?_⟩ <;> simp [get_version_source, h1, h2, h1', h2', h3]

/-! ## Normal forms of `handle_dependency` -/

/-- The three unconditional removals at the head of the VCS branch. -/
def rmVcsFields (dep : InlineTable) : InlineTable :=
  tremove (tremove (tremove dep "tag") "branch") "rev"

theorem tget_rmVcsFields_of_ne (dep : InlineTable) (k : String)
    (h1 : k ≠ "tag") (h2 : k ≠ "branch") (h3 : k ≠ "rev") :
    tget (rmVcsFields dep) k = tget dep k := by
  rw [rmVcsFields, tget_tremove_ne _ _ _ (fun e => h3 e.symm),
    tget_tremove_ne _ _ _ (fun e => h2 e.symm), tget_tremove_ne _ _ _ (fun e => h1 e.symm)]

theorem tget_rmVcsFields_tag (dep : InlineTable) : tget (rmVcsFields dep) "tag" = none := by
  rw [rmVcsFields, tget_tremove_ne _ _ _ (by decide), tget_tremove_ne _ _ _ (by decide),
    tget_tremove_same]

theorem tget_rmVcsFields_branch (dep : InlineTable) : tget (rmVcsFields dep) "branch" = none := by
  rw [rmVcsFields, tget_tremove_ne _ _ _ (by decide), tget_tremove_same]

theorem tget_rmVcsFields_rev (dep : InlineTable) : tget (rmVcsFields dep) "rev" = none := by
  rw [rmVcsFields, tget_tremove_same]

/-- Whether a VCS-shaped rewrite reaches the field-setting code for this
entry: the entry's `git` field parses and the classified bucket matches
the target (or the target is `All`). -/
def vcsEligible (parse : String → Option GitUrl) (dep : InlineTable)
    (rewrite : Rewrite) : Bool :=
  match ((tget dep "git").bind Value.as_str).bind parse with
  | some git => (matchRewrite rewrite git).isSome
  | none => false

/-- The state+result of the rewriter on a VCS-shaped key, written as
one case split on the parsed `git` field and the target match: every
path returns `Ok(())`. -/
theorem handle_dependency_state_vcs (parse : String → Option GitUrl)
    (resolve : String → VersionSource → Except String String)
    (name : String) (dep : InlineTable) (rewrite : Rewrite) (f s : String) (key : Key)
    (hkey : (key = Key.Tag s ∧ f = "tag") ∨ (key = Key.Branch s ∧ f = "branch") ∨
      (key = Key.Rev s ∧ f = "rev")) :
    handle_dependency_state parse resolve name dep rewrite key =
      ((match ((tget dep "git").bind Value.as_str).bind parse with
       | none => rmVcsFields dep
       | some git =>
         match matchRewrite rewrite git with
         | none => rmVcsFields dep
         | some none => tset (rmVcsFields dep) f (strVal s " " " ")
         | some (some u) =>
           tset (tset (rmVcsFields dep) "git" (strVal u " " "")) f (strVal s " " " ")),
       Except.ok ()) := by
  have hgit : tget (tremove (tremove (tremove dep "tag") "branch") "rev") "git"
      = tget dep "git" := tget_rmVcsFields_of_ne dep "git" (by decide) (by decide) (by decide)
  rcases hkey with ⟨rfl, rfl⟩ | ⟨rfl, rfl⟩ | ⟨rfl, rfl⟩ <;>
  · rcases hX : ((tget dep "git").bind Value.as_str).bind parse with _ | git
    · simp [handle_dependency_state, is_git_source, rmVcsFields, hgit, hX]
    · rcases hM : matchRewrite rewrite git with _ | ng
      · simp [handle_dependency_state, is_git_source, rmVcsFields, hgit, hX, hM]
      · rcases ng with _ | u <;>
          simp [handle_dependency_state, is_git_source, rmVcsFields, hgit, hX, hM, apply_key]

/-- `handle_dependency` on a VCS-shaped key, written as one case split
on the parsed `git` field and the target match. -/
theorem handle_dependency_vcs (parse : String → Option GitUrl)
    (resolve : String → VersionSource → Except String String)
    (name : String) (dep : InlineTable) (rewrite : Rewrite) (f s : String) (key : Key)
    (hkey : (key = Key.Tag s ∧ f = "tag") ∨ (key = Key.Branch s ∧ f = "branch") ∨
      (key = Key.Rev s ∧ f = "rev")) :
    handle_dependency parse resolve name dep rewrite key = Except.ok
      (match ((tget dep "git").bind Value.as_str).bind parse with
       | none => rmVcsFields dep
       | some git =>
         match matchRewrite rewrite git with
         | none => rmVcsFields dep
         | some none => tset (rmVcsFields dep) f (strVal s " " " ")
         | some (some u) =>
           tset (tset (rmVcsFields dep) "git" (strVal u " " "")) f (strVal s " " " ")) := by
  rw [handle_dependency, handle_dependency_state_vcs parse resolve name dep rewrite f s key hkey]

/-- The state+result of the rewriter on a Version-shaped key: the
`version`/`path` removals persist even when the resolver fails. -/
theorem handle_dependency_state_version (parse : String → Option GitUrl)
    (resolve : String → VersionSource → Except String String)
    (name : String) (dep : InlineTable) (rewrite : Rewrite) (src : VersionSource) :
    handle_dependency_state parse resolve name dep rewrite (Key.Version src) =
      match resolve (effectivePackage dep name) src with
      | Except.error e => (tremove (tremove dep "version") "path", Except.error e)
      | Except.ok v =>
        (tset (tremove (tremove dep "version") "path") "version" (strVal v " " " "),
          Except.ok ()) := by
  have hpkg : effectivePackage (tremove (tremove dep "version") "path") name
      = effectivePackage dep name := by
    rw [effectivePackage, effectivePackage, tget_tremove_ne _ _ _ (by decide),
      tget_tremove_ne _ _ _ (by decide)]
  show (match resolve (effectivePackage (tremove (tremove dep "version") "path") name) src with
    | Except.error e => (tremove (tremove dep "version") "path", Except.error e)
    | Except.ok version =>
      (tset (tremove (tremove dep "version") "path") "version" (strVal version " " " "),
        Except.ok ())) = _
  rw [hpkg]

/-- `handle_dependency` on a Version-shaped key, written as one case
split on the resolver outcome. -/
theorem handle_dependency_version (parse : String → Option GitUrl)
    (resolve : String → VersionSource → Except String String)
    (name : String) (dep : InlineTable) (rewrite : Rewrite) (src : VersionSource) :
    handle_dependency parse resolve name dep rewrite (Key.Version src) =
      match resolve (effectivePackage dep name) src with
      | Except.error e => Except.error e
      | Except.ok v => Except.ok
          (tset (tremove (tremove dep "version") "path") "version" (strVal v " " " ")) := by
  rw [handle_dependency, handle_dependency_state_version]
  rcases hr : resolve (effectivePackage dep name) src with e | v <;> rfl

/-- When the call succeeds, the entry's final state is the table the
success carries. -/
theorem handle_dependency_ok_state (parse : String → Option GitUrl)
    (resolve : String → VersionSource → Except String String)
    (name : String) (dep : InlineTable) (rewrite : Rewrite) (key : Key)
    (it' : InlineTable)
    (h : handle_dependency parse resolve name dep rewrite key = Except.ok it') :
    (handle_dependency_state parse resolve name dep rewrite key).1 = it' := by
  rw [handle_dependency] at h
  rcases hs : handle_dependency_state parse resolve name dep rewrite key with ⟨d', r⟩
  rw [hs] at h
  cases r with
  | ok u =>
    have h' : Except.ok d' = Except.ok it' := h
    cases h'
    rfl
  | error e => exact Except.noConfusion (show Except.error e = Except.ok it' from h)

/-- When the call fails, the key must be Version-shaped and the entry's
final state is the original table with `version` and `path` removed:
the in-place removals performed before the resolver failure persist. -/
theorem handle_dependency_error_state (parse : String → Option GitUrl)
    (resolve : String → VersionSource → Except String String)
    (name : String) (dep : InlineTable) (rewrite : Rewrite) (key : Key) (e : String)
    (h : handle_dependency parse resolve name dep rewrite key = Except.error e) :
    (handle_dependency_state parse resolve name dep rewrite key).1
      = tremove (tremove dep "version") "path" := by
  match key with
  | Key.Tag s =>
    rw [handle_dependency_vcs parse resolve name dep rewrite "tag" s (Key.Tag s)
      (Or.inl ⟨rfl, rfl⟩)] at h
    exact Except.noConfusion h
  | Key.Branch s =>
    rw [handle_dependency_vcs parse resolve name dep rewrite "branch" s (Key.Branch s)
      (Or.inr (Or.inl ⟨rfl, rfl⟩))] at h
    exact Except.noConfusion h
  | Key.Rev s =>
    rw [handle_dependency_vcs parse resolve name dep rewrite "rev" s (Key.Rev s)
      (Or.inr (Or.inr ⟨rfl, rfl⟩))] at h
    exact Except.noConfusion h
  | Key.Version src =>
    rw [handle_dependency_state_version]
    rw [handle_dependency_version] at h
    rcases hr : resolve (effectivePackage dep name) src with e' | v
    · rfl
    · rw [hr] at h
      exact Except.noConfusion (show Except.ok (tset (tremove (tremove dep "version") "path")
        "version" (strVal v " " " ")) = Except.error e from h)

theorem tget_rmVcsFields_vcs (dep : InlineTable) (g : String)
    (hg : g = "tag" ∨ g = "branch" ∨ g = "rev") : tget (rmVcsFields dep) g = none := by
  rcases hg with rfl | rfl | rfl
  · exact tget_rmVcsFields_tag dep
  · exact tget_rmVcsFields_branch dep
  · exact tget_rmVcsFields_rev dep

theorem tget_rmVcsFields_some (dep : InlineTable) (f : String) (val : Value)
    (h : tget (rmVcsFields dep) f = some val) : tget dep f = some val := by
  by_cases h1 : f = "tag"
  · subst h1; rw [tget_rmVcsFields_tag] at h; cases h
  by_cases h2 : f = "branch"
  · subst h2; rw [tget_rmVcsFields_branch] at h; cases h
  by_cases h3 : f = "rev"
  · subst h3; rw [tget_rmVcsFields_rev] at h; cases h
  rwa [tget_rmVcsFields_of_ne dep f h1 h2 h3] at h

theorem tget_rmVersionPath_some (dep : InlineTable) (f : String) (val : Value)
    (h : tget (tremove (tremove dep "version") "path") f = some val) :
    tget dep f = some val := by
  by_cases h1 : f = "path"
  · subst h1; rw [tget_tremove_same] at h; cases h
  by_cases h2 : f = "version"
  · subst h2
    rw [tget_tremove_ne _ _ _ (fun e => h1 e.symm), tget_tremove_same] at h; cases h
  rwa [tget_tremove_ne _ _ _ (fun e => h1 e.symm),
    tget_tremove_ne _ _ _ (fun e => h2 e.symm)] at h

theorem tget_tset_some_cases (t : InlineTable) (k0 f : String) (v0 val : Value)
    (h : tget (tset t k0 v0) f = some val) :
    (f = k0 ∧ val = v0) ∨ (f ≠ k0 ∧ tget t f = some val) := by
  by_cases hf : f = k0
  · subst hf; rw [tget_tset_same] at h
    exact Or.inl ⟨rfl, (Option.some.inj h).symm⟩
  · exact Or.inr ⟨hf, by rwa [tget_tset_ne _ _ _ _ (fun e => hf e.symm)] at h⟩

/-! ## C1: VCS rewrite field outcome -/

/-- C1, counterexample to the claim as stated.  A VCS rewrite of an
entry with no `git` field returns success after removing
`tag`/`branch`/`rev`, without setting any of them: after this successful
call **zero** of `tag`/`branch`/`rev` are present, not exactly one. -/
theorem vcs_rewrite_skip_sets_no_field :
    handle_dependency (fun _ => none) (fun _ _ => Except.error "e") "dep" []
        Rewrite.All (Key.Branch "x") = Except.ok [] ∧
    tget [] "branch" = none :=
  ⟨rfl, rfl⟩

/-- **C1 (amended).** For every dependency entry and every VCS-shaped key
(`Tag`/`Branch`/`Rev`), a successful call to `handle_dependency` leaves the
entry with **at most** one of `tag`/`branch`/`rev` present: the two fields
not matching the key are removed; the field matching the key is set to the
requested string when the entry's `git` field parses to a URL whose
classified bucket matches the target (or the target is `All`), and is
removed otherwise; `version` and `path` are unchanged by the invocation. -/
theorem vcs_rewrite_field_outcome (parse : String → Option GitUrl)
    (resolve : String → VersionSource → Except String String)
    (name : String) (dep : InlineTable) (rewrite : Rewrite) (f s : String)
    (key : Key) (dep' : InlineTable)
    (hkey : (key = Key.Tag s ∧ f = "tag") ∨ (key = Key.Branch s ∧ f = "branch") ∨
      (key = Key.Rev s ∧ f = "rev"))
    (h : handle_dependency parse resolve name dep rewrite key = Except.ok dep') :
    tget dep' "version" = tget dep "version" ∧
    tget dep' "path" = tget dep "path" ∧
    (∀ g, (g = "tag" ∨ g = "branch" ∨ g = "rev") → g ≠ f → tget dep' g = none) ∧
    (vcsEligible parse dep rewrite = true → tget dep' f = some (strVal s " " " ")) ∧
    (vcsEligible parse dep rewrite = false → tget dep' f = none) := by
  have hf3 : f = "tag" ∨ f = "branch" ∨ f = "rev" := by
    rcases hkey with ⟨_, rfl⟩ | ⟨_, rfl⟩ | ⟨_, rfl⟩ <;> simp
  have hfv : f ≠ "version" := by rcases hf3 with rfl | rfl | rfl <;> decide
  have hfp : f ≠ "path" := by rcases hf3 with rfl | rfl | rfl <;> decide
  rw [handle_dependency_vcs parse resolve name dep rewrite f s key hkey] at h
  rcases hX : ((tget dep "git").bind Value.as_str).bind parse with _ | git
  · rw [hX] at h
    injection h with h
    subst h
    have hE : vcsEligible parse dep rewrite = false := by simp [vcsEligible, hX]
    refine ⟨tget_rmVcsFields_of_ne dep "version" (by decide) (by decide) (by decide),
      tget_rmVcsFields_of_ne dep "path" (by decide) (by decide) (by decide),
      fun g hg _ => tget_rmVcsFields_vcs dep g hg, ?_,
      fun _ => tget_rmVcsFields_vcs dep f hf3⟩
    intro hel
    rw [hE] at hel
    cases hel
  · rcases hM : matchRewrite rewrite git with _ | ng
    · simp only [hX, hM] at h
      injection h with h
      subst h
      have hE : vcsEligible parse dep rewrite = false := by
        simp [vcsEligible, hX, hM]
      refine ⟨tget_rmVcsFields_of_ne dep "version" (by decide) (by decide) (by decide),
        tget_rmVcsFields_of_ne dep "path" (by decide) (by decide) (by decide),
        fun g hg _ => tget_rmVcsFields_vcs dep g hg, ?_,
        fun _ => tget_rmVcsFields_vcs dep f hf3⟩
      intro hel
      rw [hE] at hel
      cases hel
    · have hE : vcsEligible parse dep rewrite = true := by
        simp [vcsEligible, hX, hM]
      rcases ng with _ | u
      · simp only [hX, hM] at h
        injection h with h
        subst h
        refine ⟨?_, ?_, ?_, fun _ => tget_tset_same _ _ _, ?_⟩
        · rw [tget_tset_ne _ _ _ _ hfv,
            tget_rmVcsFields_of_ne dep "version" (by decide) (by decide) (by decide)]
        · rw [tget_tset_ne _ _ _ _ hfp,
            tget_rmVcsFields_of_ne dep "path" (by decide) (by decide) (by decide)]
        · intro g hg hgf
          rw [tget_tset_ne _ _ _ _ (fun e => hgf e.symm), tget_rmVcsFields_vcs dep g hg]
        · intro hel
          rw [hE] at hel
          cases hel
      · simp only [hX, hM] at h
        injection h with h
        subst h
        have hfg : f ≠ "git" := by rcases hf3 with rfl | rfl | rfl <;> decide
        refine ⟨?_, ?_, ?_, fun _ => tget_tset_same _ _ _, ?_⟩
        · rw [tget_tset_ne _ _ _ _ hfv, tget_tset_ne _ _ _ _ (by decide),
            tget_rmVcsFields_of_ne dep "version" (by decide) (by decide) (by decide)]
        · rw [tget_tset_ne _ _ _ _ hfp, tget_tset_ne _ _ _ _ (by decide),
            tget_rmVcsFields_of_ne dep "path" (by decide) (by decide) (by decide)]
        · intro g hg hgf
          have hgit : "git" ≠ g := by rcases hg with rfl | rfl | rfl <;> decide
          rw [tget_tset_ne _ _ _ _ (fun e => hgf e.symm), tget_tset_ne _ _ _ _ hgit,
            tget_rmVcsFields_vcs dep g hg]
        · intro hel
          rw [hE] at hel
          cases hel

/-- C1 witness: an eligible entry (git parses, target `All`) rewritten
with `Tag "v1"` ends with `tag` set to the decorated requested string. -/
theorem vcs_rewrite_field_outcome_witness :
    tget [("git", strVal "g" " " ""), ("tag", strVal "v1" " " " ")] "tag"
      = some (strVal "v1" " " " ") :=
  (vcs_rewrite_field_outcome (fun _ => some ⟨"substrate"⟩) (fun _ _ => Except.error "e")
    "d" [("git", strVal "g" " " "")] Rewrite.All "tag" "v1" (Key.Tag "v1")
    [("git", strVal "g" " " ""), ("tag", strVal "v1" " " " ")]
    (Or.inl ⟨rfl, rfl⟩) rfl).2.2.2.1 rfl

/-! ## C2: Version rewrite outcome -/

/-- **C2.** For every dependency entry and Version-shaped key whose
resolution succeeds, `handle_dependency` removes `version` and `path`,
leaves every other field (in particular `git`/`tag`/`branch`/`rev`)
untouched, and sets `version` to the string resolved for the effective
package name — the entry's `package` field when present as a string,
otherwise the dependency's table key name. -/
theorem version_rewrite_outcome (parse : String → Option GitUrl)
    (resolve : String → VersionSource → Except String String)
    (name : String) (dep : InlineTable) (rewrite : Rewrite) (src : VersionSource)
    (v : String) (dep' : InlineTable)
    (hres : resolve (effectivePackage dep name) src = Except.ok v)
    (h : handle_dependency parse resolve name dep rewrite (Key.Version src)
      = Except.ok dep') :
    tget dep' "version" = some (strVal v " " " ") ∧
    tget dep' "path" = none ∧
    (∀ k, k ≠ "version" → k ≠ "path" → tget dep' k = tget dep k) ∧
    (∀ p, (tget dep "package").bind Value.as_str = some p → effectivePackage dep name = p) ∧
    ((tget dep "package").bind Value.as_str = none → effectivePackage dep name = name) := by
  rw [handle_dependency_version, hres] at h
  injection h with h
  subst h
  refine ⟨tget_tset_same _ _ _, ?_, ?_, ?_, ?_⟩
  · rw [tget_tset_ne _ _ _ _ (by decide), tget_tremove_same]
  · intro k hkv hkp
    rw [tget_tset_ne _ _ _ _ (fun e => hkv e.symm),
      tget_tremove_ne _ _ _ (fun e => hkp e.symm),
      tget_tremove_ne _ _ _ (fun e => hkv e.symm)]
  · intro p hp
    rw [effectivePackage, hp]
  · intro hp
    rw [effectivePackage, hp]

/-- C2 witness: a dependency whose `package` field is absent resolves
under its table key name and ends with the resolved, decorated version. -/
theorem version_rewrite_outcome_witness :
    tget [("git", strVal "g" " " ""), ("version", strVal "1.2.3" " " " ")] "version"
      = some (strVal "1.2.3" " " " ") :=
  (version_rewrite_outcome (fun _ => none)
    (fun p _ => if p = "foo" then Except.ok "1.2.3" else Except.error "nf")
    "foo" [("version", strVal "0.1" " " ""), ("path", strVal "x" " " ""),
      ("git", strVal "g" " " "")]
    Rewrite.All VersionSource.CratesIO "1.2.3"
    [("git", strVal "g" " " ""), ("version", strVal "1.2.3" " " " ")] rfl rfl).1

/-! ## C3: bucket scoping -/

/-- C3, counterexample to the claim as stated.  Under a
`--substrate --branch x` rewrite, a *polkadot*-classified entry is not
left fully unchanged: its existing `branch` field is removed (the three
VCS fields are removed unconditionally before the eligibility check). -/
theorem bucket_scope_polkadot_entry_changed :
    handle_dependency (fun u => if u = "us" then some ⟨"substrate"⟩ else some ⟨"polkadot"⟩)
        (fun _ _ => Except.error "e") "polkadot"
        [("git", strVal "up" " " ""), ("branch", strVal "master" " " " ")]
        (Rewrite.Substrate none) (Key.Branch "x")
      = Except.ok [("git", strVal "up" " " "")] ∧
    ([("git", strVal "up" " " "")] : InlineTable) ≠
      [("git", strVal "up" " " ""), ("branch", strVal "master" " " " ")] :=
  ⟨rfl, by decide⟩

/-- **C3 (amended).** For two git-sourced entries whose URL repository
names classify as `substrate` and `polkadot`, a `--substrate --branch x`
rewrite (no replacement URL) sets the first entry's `branch` to `x` and
removes its `tag`/`rev`, leaving its other fields unchanged; the second
entry keeps every field except that its `tag`/`branch`/`rev` fields are
removed. -/
theorem bucket_scoping_branch_rewrite (parse : String → Option GitUrl)
    (resolve : String → VersionSource → Except String String)
    (n1 n2 : String) (d1 d2 : InlineTable) (u1 u2 x : String) (g1 g2 : GitUrl)
    (d1' d2' : InlineTable)
    (h1g : (tget d1 "git").bind Value.as_str = some u1)
    (h1p : parse u1 = some g1) (h1n : g1.name = "substrate")
    (h2g : (tget d2 "git").bind Value.as_str = some u2)
    (h2p : parse u2 = some g2) (h2n : g2.name = "polkadot")
    (h1 : handle_dependency parse resolve n1 d1 (Rewrite.Substrate none) (Key.Branch x)
      = Except.ok d1')
    (h2 : handle_dependency parse resolve n2 d2 (Rewrite.Substrate none) (Key.Branch x)
      = Except.ok d2') :
    (tget d1' "branch" = some (strVal x " " " ") ∧ tget d1' "tag" = none ∧
      tget d1' "rev" = none ∧
      (∀ k, k ≠ "tag" → k ≠ "branch" → k ≠ "rev" → tget d1' k = tget d1 k)) ∧
    (tget d2' "tag" = none ∧ tget d2' "branch" = none ∧ tget d2' "rev" = none ∧
      (∀ k, k ≠ "tag" → k ≠ "branch" → k ≠ "rev" → tget d2' k = tget d2 k)) := by
  rw [handle_dependency_vcs parse resolve n1 d1 (Rewrite.Substrate none) "branch" x
    (Key.Branch x) (Or.inr (Or.inl ⟨rfl, rfl⟩))] at h1
  rw [handle_dependency_vcs parse resolve n2 d2 (Rewrite.Substrate none) "branch" x
    (Key.Branch x) (Or.inr (Or.inl ⟨rfl, rfl⟩))] at h2
  simp only [h1g, Option.some_bind, h1p, matchRewrite, h1n, if_true] at h1
  simp only [h2g, Option.some_bind, h2p, matchRewrite, h2n] at h2
  rw [if_neg (by decide : ¬("polkadot" = "substrate"))] at h2
  injection h1 with h1
  subst h1
  injection h2 with h2
  subst h2
  refine ⟨⟨tget_tset_same _ _ _, ?_, ?_, ?_⟩,
    tget_rmVcsFields_tag d2, tget_rmVcsFields_branch d2, tget_rmVcsFields_rev d2, ?_⟩
  · rw [tget_tset_ne _ _ _ _ (by decide), tget_rmVcsFields_tag]
  · rw [tget_tset_ne _ _ _ _ (by decide), tget_rmVcsFields_rev]
  · intro k hkt hkb hkr
    rw [tget_tset_ne _ _ _ _ (fun e => hkb e.symm),
      tget_rmVcsFields_of_ne d1 k hkt hkb hkr]
  · intro k hkt hkb hkr
    rw [tget_rmVcsFields_of_ne d2 k hkt hkb hkr]

/-- C3 witness: concrete substrate/polkadot pair. -/
theorem bucket_scoping_branch_rewrite_witness :
    tget [("git", strVal "us" " " ""), ("branch", strVal "x" " " " ")] "branch"
      = some (strVal "x" " " " ") :=
  (bucket_scoping_branch_rewrite
    (fun u => if u = "us" then some ⟨"substrate"⟩ else some ⟨"polkadot"⟩)
    (fun _ _ => Except.error "e") "a" "b"
    [("git", strVal "us" " " "")] [("git", strVal "up" " " "")]
    "us" "up" "x" ⟨"substrate"⟩ ⟨"polkadot"⟩
    [("git", strVal "us" " " ""), ("branch", strVal "x" " " " ")]
    [("git", strVal "up" " " "")]
    rfl rfl rfl rfl rfl rfl rfl rfl).1.1

/-! ## C9: decorations of written values -/

/-- **C9.** Every scalar value written by the rewriter carries a single
leading space; the `tag`, `branch`, `rev` (and `version`) fields get a
single trailing space, while the `git` field gets a leading space only
and an empty suffix: after a successful call, any field of the result
either held the same value before the call or was written decorated as
`pre = " "` and `suf = ""` for `git`, `suf = " "` otherwise. -/
theorem rewriter_value_decorations (parse : String → Option GitUrl)
    (resolve : String → VersionSource → Except String String)
    (name : String) (dep : InlineTable) (rewrite : Rewrite) (key : Key)
    (dep' : InlineTable)
    (h : handle_dependency parse resolve name dep rewrite key = Except.ok dep') :
    ∀ f val, tget dep' f = some val →
      tget dep f = some val ∨
      (val.pre = " " ∧ val.suf = (if f = "git" then "" else " ")) := by
  have vcsCase : ∀ f0 s, (key = Key.Tag s ∧ f0 = "tag") ∨ (key = Key.Branch s ∧ f0 = "branch") ∨
      (key = Key.Rev s ∧ f0 = "rev") →
      ∀ f val, tget dep' f = some val →
        tget dep f = some val ∨
        (val.pre = " " ∧ val.suf = (if f = "git" then "" else " ")) := by
    intro f0 s hkey f val hv
    have hf0 : f0 = "tag" ∨ f0 = "branch" ∨ f0 = "rev" := by
      rcases hkey with ⟨_, rfl⟩ | ⟨_, rfl⟩ | ⟨_, rfl⟩ <;> simp
    have hf0g : ¬(f0 = "git") := by rcases hf0 with rfl | rfl | rfl <;> decide
    rw [handle_dependency_vcs parse resolve name dep rewrite f0 s key hkey] at h
    rcases hX : ((tget dep "git").bind Value.as_str).bind parse with _ | git
    · rw [hX] at h
      injection h with h
      subst h
      exact Or.inl (tget_rmVcsFields_some dep f val hv)
    · rcases hM : matchRewrite rewrite git with _ | ng
      · simp only [hX, hM] at h
        injection h with h
        subst h
        exact Or.inl (tget_rmVcsFields_some dep f val hv)
      · rcases ng with _ | u <;> simp only [hX, hM] at h <;> injection h with h <;> subst h
        · rcases tget_tset_some_cases _ _ _ _ _ hv with ⟨rfl, rfl⟩ | ⟨_, hv'⟩
          · exact Or.inr ⟨rfl, by rw [if_neg hf0g]; rfl⟩
          · exact Or.inl (tget_rmVcsFields_some dep f val hv')
        · rcases tget_tset_some_cases _ _ _ _ _ hv with ⟨rfl, rfl⟩ | ⟨_, hv'⟩
          · exact Or.inr ⟨rfl, by rw [if_neg hf0g]; rfl⟩
          · rcases tget_tset_some_cases _ _ _ _ _ hv' with ⟨rfl, rfl⟩ | ⟨_, hv''⟩
            · exact Or.inr ⟨rfl, by rw [if_pos rfl]; rfl⟩
            · exact Or.inl (tget_rmVcsFields_some dep f val hv'')
  match key with
  | Key.Tag s => exact vcsCase "tag" s (Or.inl ⟨rfl, rfl⟩)
  | Key.Branch s => exact vcsCase "branch" s (Or.inr (Or.inl ⟨rfl, rfl⟩))
  | Key.Rev s => exact vcsCase "rev" s (Or.inr (Or.inr ⟨rfl, rfl⟩))
  | Key.Version src =>
    intro f val hv
    rw [handle_dependency_version] at h
    rcases hr : resolve (effectivePackage dep name) src with e | v
    · rw [hr] at h
      cases h
    · rw [hr] at h
      injection h with h
      subst h
      rcases tget_tset_some_cases _ _ _ _ _ hv with ⟨rfl, rfl⟩ | ⟨_, hv'⟩
      · exact Or.inr ⟨rfl, by rw [if_neg (by decide : ¬("version" = "git"))]; rfl⟩
      · exact Or.inl (tget_rmVersionPath_some dep f val hv')

/-- C9 witness: in an eligible substrate rewrite with a replacement URL,
the written `git` value has a leading space and empty suffix. -/
theorem rewriter_value_decorations_witness :
    tget [("git", strVal "u1" " " "")] "git" = some (strVal "u2" " " "") ∨
    ((strVal "u2" " " "").pre = " " ∧
      (strVal "u2" " " "").suf = (if "git" = "git" then "" else " ")) :=
  rewriter_value_decorations (fun _ => some ⟨"substrate"⟩) (fun _ _ => Except.error "e")
    "d" [("git", strVal "u1" " " "")] (Rewrite.Substrate (some "u2")) (Key.Tag "v1")
    [("git", strVal "u2" " " ""), ("tag", strVal "v1" " " " ")] rfl
    "git" (strVal "u2" " " "") rfl

/-! ## C6: idempotence -/

theorem tremove_eq_filter (t : InlineTable) (k : String) :
    tremove t k = t.filter (fun p => p.1 ≠ k) := by
  induction t with
  | nil => rfl
  | cons p t ih =>
    obtain ⟨q, v⟩ := p
    by_cases hq : q = k <;> simp [tremove, hq, ih]

theorem rmVcsFields_idem (dep : InlineTable) :
    rmVcsFields (rmVcsFields dep) = rmVcsFields dep := by
  simp only [rmVcsFields, tremove_eq_filter, List.filter_filter]
  congr 1
  funext p
  by_cases h1 : p.1 = "tag" <;> by_cases h2 : p.1 = "branch" <;>
    by_cases h3 : p.1 = "rev" <;> simp [h1, h2, h3]

theorem rmVcsFields_tset_vcs (X : InlineTable) (f : String) (val : Value)
    (hf : f = "tag" ∨ f = "branch" ∨ f = "rev") :
    rmVcsFields (tset X f val) = rmVcsFields X := by
  rcases hf with rfl | rfl | rfl
  · rw [rmVcsFields, rmVcsFields, tremove_tset_self]
  · rw [rmVcsFields, rmVcsFields, tremove_tset_ne _ _ _ _ (by decide), tremove_tset_self]
  · rw [rmVcsFields, rmVcsFields, tremove_tset_ne _ _ _ _ (by decide),
      tremove_tset_ne _ _ _ _ (by decide), tremove_tset_self]

theorem rmVcsFields_tset_git (X : InlineTable) (val : Value) :
    rmVcsFields (tset X "git" val) = tset (rmVcsFields X) "git" val := by
  rw [rmVcsFields, rmVcsFields, tremove_tset_ne _ _ _ _ (by decide),
    tremove_tset_ne _ _ _ _ (by decide), tremove_tset_ne _ _ _ _ (by decide)]

/-- The side condition under which a bucket rewrite is idempotent: when
the target carries a replacement URL, parsing that URL classifies back
into the same bucket (e.g. a fork still named `substrate`). -/
def rewriteUrlConsistent (parse : String → Option GitUrl) : Rewrite → Prop
  | Rewrite.All => True
  | Rewrite.Substrate new_git =>
    ∀ u, new_git = some u → ∃ g, parse u = some g ∧ g.name = "substrate"
  | Rewrite.Polkadot new_git =>
    ∀ u, new_git = some u → ∃ g, parse u = some g ∧ g.name = "polkadot"
  | Rewrite.Cumulus new_git =>
    ∀ u, new_git = some u → ∃ g, parse u = some g ∧ g.name = "cumulus"
  | Rewrite.Beefy new_git =>
    ∀ u, new_git = some u → ∃ g, parse u = some g ∧ g.name = "grandpa-bridge-gadget"

theorem matchRewrite_consistent (parse : String → Option GitUrl) (rewrite : Rewrite)
    (git : GitUrl) (u : String)
    (hc : rewriteUrlConsistent parse rewrite)
    (hM : matchRewrite rewrite git = some (some u)) :
    ∃ g, parse u = some g ∧ matchRewrite rewrite g = some (some u) := by
  cases rewrite with
  | All => simp [matchRewrite] at hM
  | Substrate ng =>
    by_cases hn : git.name = "substrate"
    · rw [matchRewrite, if_pos hn] at hM
      injection hM with hM
      subst hM
      obtain ⟨g, hg, hgn⟩ := hc u rfl
      exact ⟨g, hg, by rw [matchRewrite, if_pos hgn]⟩
    · rw [matchRewrite, if_neg hn] at hM
      cases hM
  | Polkadot ng =>
    by_cases hn : git.name = "polkadot"
    · rw [matchRewrite, if_pos hn] at hM
      injection hM with hM
      subst hM
      obtain ⟨g, hg, hgn⟩ := hc u rfl
      exact ⟨g, hg, by rw [matchRewrite, if_pos hgn]⟩
    · rw [matchRewrite, if_neg hn] at hM
      cases hM
  | Cumulus ng =>
    by_cases hn : git.name = "cumulus"
    · rw [matchRewrite, if_pos hn] at hM
      injection hM with hM
      subst hM
      obtain ⟨g, hg, hgn⟩ := hc u rfl
      exact ⟨g, hg, by rw [matchRewrite, if_pos hgn]⟩
    · rw [matchRewrite, if_neg hn] at hM
      cases hM
  | Beefy ng =>
    by_cases hn : git.name = "grandpa-bridge-gadget"
    · rw [matchRewrite, if_pos hn] at hM
      injection hM with hM
      subst hM
      obtain ⟨g, hg, hgn⟩ := hc u rfl
      exact ⟨g, hg, by rw [matchRewrite, if_pos hgn]⟩
    · rw [matchRewrite, if_neg hn] at hM
      cases hM

/-- C6, counterexample to the claim as stated.  A substrate-bucket
rewrite carrying a replacement URL whose repository name is no longer
`substrate` (a fork named `fork`) is not idempotent: the second
application classifies the rewritten `git` URL into no bucket, skips the
entry, and leaves the `branch` field removed instead of re-set. -/
theorem rewrite_not_idempotent_for_renaming_url :
    handle_dependency
        (fun s => if s = "u1" then some ⟨"substrate"⟩
          else if s = "u2" then some ⟨"fork"⟩ else none)
        (fun _ _ => Except.error "e") "d" [("git", strVal "u1" " " "")]
        (Rewrite.Substrate (some "u2")) (Key.Branch "x")
      = Except.ok [("git", strVal "u2" " " ""), ("branch", strVal "x" " " " ")] ∧
    handle_dependency
        (fun s => if s = "u1" then some ⟨"substrate"⟩
          else if s = "u2" then some ⟨"fork"⟩ else none)
        (fun _ _ => Except.error "e") "d"
        [("git", strVal "u2" " " ""), ("branch", strVal "x" " " " ")]
        (Rewrite.Substrate (some "u2")) (Key.Branch "x")
      = Except.ok [("git", strVal "u2" " " "")] ∧
    ([("git", strVal "u2" " " "")] : InlineTable) ≠
      [("git", strVal "u2" " " ""), ("branch", strVal "x" " " " ")] :=
  ⟨rfl, rfl, by decide⟩

/-- **C6 (amended).** With deterministic version resolution, applying the
same rewrite (same target and key) twice yields the same final fields as
applying it once, **provided** that when the target carries a replacement
URL, that URL still classifies into the target's bucket.  (Without that
proviso the second application can skip the entry, see the
counterexample.) -/
theorem rewrite_idempotent (parse : String → Option GitUrl)
    (resolve : String → VersionSource → Except String String)
    (name : String) (dep : InlineTable) (rewrite : Rewrite) (key : Key)
    (dep' : InlineTable)
    (hc : rewriteUrlConsistent parse rewrite)
    (h : handle_dependency parse resolve name dep rewrite key = Except.ok dep') :
    handle_dependency parse resolve name dep' rewrite key = Except.ok dep' := by
  have vcs : ∀ f s, ((key = Key.Tag s ∧ f = "tag") ∨ (key = Key.Branch s ∧ f = "branch") ∨
      (key = Key.Rev s ∧ f = "rev")) →
      handle_dependency parse resolve name dep' rewrite key = Except.ok dep' := by
    intro f s hkey
    have hf3 : f = "tag" ∨ f = "branch" ∨ f = "rev" := by
      rcases hkey with ⟨_, rfl⟩ | ⟨_, rfl⟩ | ⟨_, rfl⟩ <;> simp
    have hfg : f ≠ "git" := by rcases hf3 with rfl | rfl | rfl <;> decide
    rw [handle_dependency_vcs parse resolve name dep rewrite f s key hkey] at h
    rw [handle_dependency_vcs parse resolve name dep' rewrite f s key hkey]
    rcases hX : ((tget dep "git").bind Value.as_str).bind parse with _ | git
    · rw [hX] at h
      injection h with h
      subst h
      have hX' : ((tget (rmVcsFields dep) "git").bind Value.as_str).bind parse = none := by
        rw [tget_rmVcsFields_of_ne dep "git" (by decide) (by decide) (by decide)]
        exact hX
      simp only [hX', rmVcsFields_idem]
    · rcases hM : matchRewrite rewrite git with _ | ng
      · simp only [hX, hM] at h
        injection h with h
        subst h
        have hX' : ((tget (rmVcsFields dep) "git").bind Value.as_str).bind parse
            = some git := by
          rw [tget_rmVcsFields_of_ne dep "git" (by decide) (by decide) (by decide)]
          exact hX
        simp only [hX', hM, rmVcsFields_idem]
      · rcases ng with _ | u
        · simp only [hX, hM] at h
          injection h with h
          subst h
          have hX' : ((tget (tset (rmVcsFields dep) f (strVal s " " " ")) "git").bind
              Value.as_str).bind parse = some git := by
            rw [tget_tset_ne _ _ _ _ hfg,
              tget_rmVcsFields_of_ne dep "git" (by decide) (by decide) (by decide)]
            exact hX
          simp only [hX', hM, rmVcsFields_tset_vcs _ f _ hf3, rmVcsFields_idem]
        · simp only [hX, hM] at h
          injection h with h
          subst h
          obtain ⟨g, hg, hM'⟩ := matchRewrite_consistent parse rewrite git u hc hM
          have hX' : ((tget (tset (tset (rmVcsFields dep) "git" (strVal u " " "")) f
              (strVal s " " " ")) "git").bind Value.as_str).bind parse = some g := by
            rw [tget_tset_ne _ _ _ _ hfg, tget_tset_same]
            simpa using hg
          simp only [hX', hM']
          rw [rmVcsFields_tset_vcs _ f _ hf3, rmVcsFields_tset_git, rmVcsFields_idem,
            tset_self_of_tget _ _ _ (tget_tset_same _ _ _)]
  match key with
  | Key.Tag s => exact vcs "tag" s (Or.inl ⟨rfl, rfl⟩)
  | Key.Branch s => exact vcs "branch" s (Or.inr (Or.inl ⟨rfl, rfl⟩))
  | Key.Rev s => exact vcs "rev" s (Or.inr (Or.inr ⟨rfl, rfl⟩))
  | Key.Version src =>
    rw [handle_dependency_version] at h
    rcases hr : resolve (effectivePackage dep name) src with e | v
    · rw [hr] at h
      cases h
    · rw [hr] at h
      injection h with h
      subst h
      rw [handle_dependency_version]
      have hpkg : effectivePackage (tset (tremove (tremove dep "version") "path")
          "version" (strVal v " " " ")) name = effectivePackage dep name := by
        rw [effectivePackage, effectivePackage, tget_tset_ne _ _ _ _ (by decide),
          tget_tremove_ne _ _ _ (by decide), tget_tremove_ne _ _ _ (by decide)]
      rw [hpkg, hr, tremove_tset_self, tremove_comm (tremove dep "version") "path" "version",
        tremove_tremove_self, tremove_tremove_self]

/-- C6 witness: the `All` target is always URL-consistent; re-running a
branch rewrite on the already-rewritten entry reproduces it. -/
theorem rewrite_idempotent_witness :
    handle_dependency (fun _ => none) (fun _ _ => Except.error "e") "d" []
      Rewrite.All (Key.Branch "x") = Except.ok [] :=
  rewrite_idempotent (fun _ => none) (fun _ _ => Except.error "e") "d"
    [("tag", strVal "t" " " " ")] Rewrite.All (Key.Branch "x") [] trivial rfl

/-! ## C8: CLI option conversion (`Update::into_parts`) -/

/-- `struct Update`: the options of the `update` subcommand.  The
`structopt` surface parsing (flag conflicts etc.) is the external CLI
collaborator; this structure is its output. -/
structure Update where
  path : Option String
  substrate : Bool
  polkadot : Bool
  cumulus : Bool
  beefy : Bool
  all : Bool
  branch : Option String
  rev : Option String
  tag : Option String
  version : Option String
  git : Option String
  deriving DecidableEq, Repr

/-- The `let key = …` derivation at the head of `Update::into_parts`. -/
def Update.key_of (fsExists : String → Bool) (u : Update) : Except String Key :=
  match u.branch with
  | some branch => Except.ok (Key.Branch branch)
  | none =>
    match u.rev with
    | some rev => Except.ok (Key.Rev rev)
    | none =>
      match u.tag with
      | some tag => Except.ok (Key.Tag tag)
      | none =>
        match u.version with
        | some version => (get_version_source fsExists version).map Key.Version
        | none => Except.error "You need to pass --branch, --tag, --rev or --version."

/-- The `let rewrite = …` derivation of `Update::into_parts`. -/
def Update.rewrite_of (u : Update) : Except String Rewrite :=
  if u.all || u.version.isSome then
    if u.git.isSome then
      Except.error "You need to pass --substrate, --polkadot, --cumulus or --beefy for --git."
    else Except.ok Rewrite.All
  else if u.substrate then Except.ok (Rewrite.Substrate u.git)
  else if u.beefy then Except.ok (Rewrite.Beefy u.git)
  else if u.polkadot then Except.ok (Rewrite.Polkadot u.git)
  else if u.cumulus then Except.ok (Rewrite.Cumulus u.git)
  else Except.error "You must specify one of --substrate, --polkadot, --cumulus, --beefy or --all."

/-- `fn into_parts(self) -> Result<(Rewrite, Key, Option<PathBuf>)>`:
derives the key first (propagating its failure), then the target. -/
def Update.into_parts (fsExists : String → Bool) (u : Update) :
    Except String (Rewrite × Key × Option String) :=
  match u.key_of fsExists with
  | Except.error e => Except.error e
  | Except.ok key =>
    match u.rewrite_of with
    | Except.error e => Except.error e
    | Except.ok rewrite => Except.ok (rewrite, key, u.path)

/-- **C8.** The CLI conversion derives the `All` target when `--version`
is given without any scope flag (and the version source validates), and
it fails with a validation error — `into_parts` is pure and runs before
any file is opened — whenever `--git` is given without a specific bucket
selector. -/
theorem into_parts_scope_and_git (fsExists : String → Bool) :
    (∀ (u : Update) (v : String) (src : VersionSource),
      u.version = some v → u.branch = none → u.rev = none → u.tag = none →
      u.substrate = false → u.polkadot = false → u.cumulus = false → u.beefy = false →
      u.all = false → u.git = none →
      get_version_source fsExists v = Except.ok src →
      Update.into_parts fsExists u = Except.ok (Rewrite.All, Key.Version src, u.path)) ∧
    (∀ u : Update, u.git.isSome = true → u.substrate = false → u.polkadot = false →
      u.cumulus = false → u.beefy = false →
      ∃ e, Update.into_parts fsExists u = Except.error e) := by
  constructor
  · intro u v src hv hb hr ht hs hp hc hbe ha hg hsrc
    have hkey : u.key_of fsExists = Except.ok (Key.Version src) := by
      simp only [Update.key_of, hb, hr, ht, hv]
      rw [hsrc]
      rfl
    have hrw : u.rewrite_of = Except.ok Rewrite.All := by
      rw [Update.rewrite_of, hv, hg]
      simp [ha]
    rw [Update.into_parts, hkey, hrw]
  · intro u hg hs hp hc hbe
    rcases hk : u.key_of fsExists with e | k
    · exact ⟨e, by rw [Update.into_parts, hk]⟩
    · have hrw : ∃ e, u.rewrite_of = Except.error e := by
        rw [Update.rewrite_of]
        cases hall : (u.all || u.version.isSome) <;>
          simp [hall, hg, hs, hp, hc, hbe]
      obtain ⟨e, hrw⟩ := hrw
      exact ⟨e, by rw [Update.into_parts, hk, hrw]⟩

/-- C8 witness: `--version latest` alone yields the `All` target;
`--all --branch b --git g` is rejected. -/
theorem into_parts_scope_and_git_witness :
    Update.into_parts (fun _ => false)
      ⟨none, false, false, false, false, false, none, none, none, some "latest", none⟩
      = Except.ok (Rewrite.All, Key.Version VersionSource.CratesIO, none) ∧
    ∃ e, Update.into_parts (fun _ => false)
      ⟨none, false, false, false, false, true, some "b", none, none, none, some "g"⟩
      = Except.error e :=
  ⟨(into_parts_scope_and_git (fun _ => false)).1 _ "latest" VersionSource.CratesIO
      rfl rfl rfl rfl rfl rfl rfl rfl rfl rfl rfl,
    (into_parts_scope_and_git (fun _ => false)).2 _ rfl rfl rfl rfl rfl⟩

/-! ## The document model (`handle_toml_file`) -/

/-- An entry of a dependency table as the processor observes it: an
inline table (`name = { … }`) or anything else (a bare version string, a
separately nested table, …). -/
inductive DepItem where
  | inline (t : InlineTable)
  | nonInline
  deriving DecidableEq, Repr

def DepItem.isInline : DepItem → Bool
  | DepItem.inline _ => true
  | DepItem.nonInline => false

/-- A top-level item of the document: a table (`as_table` succeeds) or
anything else. -/
inductive TopItem where
  | table (entries : List (String × DepItem))
  | nonTable
  deriving DecidableEq, Repr

/-- A parsed `toml_edit::Document`: its ordered top-level key/item
pairs (the TOML parse itself is the external collaborator). -/
abbrev Doc := List (String × TopItem)

/-- Keyed lookup (`doc[k]`, first match). -/
def assocGet {α : Type} : List (String × α) → String → Option α
  | [], _ => none
  | (k', v) :: t, k => if k' = k then some v else assocGet t k

/-- In-place mutation of the value stored at the first occurrence of a
key (the effect of writing through `toml_doc[k][dn]`). -/
def assocReplace {α : Type} : List (String × α) → String → α → List (String × α)
  | [], _, _ => []
  | (k', v') :: t, k, v => if k' = k then (k, v) :: t else (k', v') :: assocReplace t k v

/-- Rust's `str::contains` for a literal pattern (used by the
`k.contains("dependencies")` filter). -/
def charsContain (pat : List Char) : List Char → Bool
  | [] => pat.isEmpty
  | a :: rest => charsStartWith (a :: rest) pat || charsContain pat rest

def strContains (s pat : String) : Bool :=
  charsContain pat.toList s.toList

/-- The `(table key, dependency key)` pairs enumerated from the *cloned*
document: top-level tables whose key contains `"dependencies"` and,
within them, the entries that are inline tables. -/
def eligibleEntries (doc : Doc) : List (String × String) :=
  doc.flatMap (fun p =>
    if strContains p.1 "dependencies" then
      match p.2 with
      | TopItem.table t =>
        (t.filter (fun q => q.2.isInline)).map (fun q => (p.1, q.1))
      | TopItem.nonTable => []
    else [])

/-- The body of the inner `for_each` of `handle_toml_file`: re-index
`toml_doc[k][dn]` in the *live* document, take it as a mutable inline
table — `none` models the `expect` panic when it no longer is one — and
run the rewriter on it in place.  The entry always ends at the state the
call leaves it in (an `Err` result is only logged): in particular, the
`version`/`path` removals performed before a resolver failure are kept
in the document. -/
def processDep (parse : String → Option GitUrl)
    (resolve : String → VersionSource → Except String String)
    (rewrite : Rewrite) (key : Key) (doc : Doc) (k dn : String) : Option Doc :=
  match assocGet doc k with
  | some (TopItem.table t) =>
    match assocGet t dn with
    | some (DepItem.inline it) =>
      some (assocReplace doc k (TopItem.table (assocReplace t dn
        (DepItem.inline (handle_dependency_state parse resolve dn it rewrite key).1))))
    | _ => none
  | _ => none

/-- Sequential processing of the snapshot of eligible entries. -/
def processEntries (parse : String → Option GitUrl)
    (resolve : String → VersionSource → Except String String)
    (rewrite : Rewrite) (key : Key) : Doc → List (String × String) → Option Doc
  | doc, [] => some doc
  | doc, p :: ps =>
    match processDep parse resolve rewrite key doc p.1 p.2 with
    | some d' => processEntries parse resolve rewrite key d' ps
    | none => none

/-- `fn handle_toml_file`: enumerate the eligible entries from the clone
of the document, mutate the live document entry by entry, then serialize
and write back.  `some doc'` is the document written back together with
the `Ok(())` return; `none` models a panic of the `expect`. -/
def handle_toml_file (parse : String → Option GitUrl)
    (resolve : String → VersionSource → Except String String)
    (rewrite : Rewrite) (key : Key) (doc : Doc) : Option Doc :=
  processEntries parse resolve rewrite key doc (eligibleEntries doc)

/-- The per-entry outcome of the log-and-continue policy: the state the
entry's own `handle_dependency` call leaves it in — the rewritten table
on success; on a logged failure the entry keeps the mutations performed
before the failure (its `version` and `path` removed). -/
def depOutcome (parse : String → Option GitUrl)
    (resolve : String → VersionSource → Except String String)
    (rewrite : Rewrite) (key : Key) (dn : String) (it : InlineTable) : InlineTable :=
  (handle_dependency_state parse resolve dn it rewrite key).1

/-- The dependency entry stored at `doc[k][dn]`. -/
def slotGet (doc : Doc) (k dn : String) : Option DepItem :=
  match assocGet doc k with
  | some (TopItem.table t) => assocGet t dn
  | _ => none

/-- Well-formed parsed document: key uniqueness at both levels, as
guaranteed by the TOML grammar. -/
def WFDoc (doc : Doc) : Prop :=
  (doc.map Prod.fst).Nodup ∧
  ∀ k t, assocGet doc k = some (TopItem.table t) → (t.map Prod.fst).Nodup

/-- The shape of a top-level item: `none` for non-tables, otherwise the
inner keys with their inline-ness. -/
def TopItem.shape : TopItem → Option (List (String × Bool))
  | TopItem.table t => some (t.map (fun q => (q.1, q.2.isInline)))
  | TopItem.nonTable => none

/-- The shape of a document: top-level keys with their items' shapes. -/
def docShape (doc : Doc) : List (String × Option (List (String × Bool))) :=
  doc.map (fun p => (p.1, p.2.shape))

theorem assocGet_map {α β : Type} (f : α → β) (l : List (String × α)) (k : String) :
    assocGet (l.map (fun p => (p.1, f p.2))) k = (assocGet l k).map f := by
  induction l with
  | nil => rfl
  | cons p t ih =>
    obtain ⟨q, v⟩ := p
    by_cases hq : q = k <;> simp [assocGet, hq, ih]

theorem assocGet_replace_ne {α : Type} (l : List (String × α)) (k k' : String) (v : α)
    (h : k ≠ k') : assocGet (assocReplace l k v) k' = assocGet l k' := by
  induction l with
  | nil => rfl
  | cons p t ih =>
    obtain ⟨q, w⟩ := p
    have h' : ¬(k = k') := h
    by_cases hq : q = k
    · subst hq
      simp [assocReplace, assocGet, h', ih]
    · simp [assocReplace, assocGet, hq, ih]

theorem assocGet_replace_same {α : Type} (l : List (String × α)) (k : String) (v w : α)
    (h : assocGet l k = some w) : assocGet (assocReplace l k v) k = some v := by
  induction l with
  | nil => cases h
  | cons p t ih =>
    obtain ⟨q, w'⟩ := p
    by_cases hq : q = k
    · simp [assocReplace, assocGet, hq]
    · simp only [assocGet, if_neg hq] at h
      simp [assocReplace, assocGet, hq, ih h]

theorem map_assocReplace_of_eq {α β : Type} (g : α → β) (l : List (String × α))
    (k : String) (v : α) (h : (assocGet l k).map g = some (g v)) :
    (assocReplace l k v).map (fun p => (p.1, g p.2)) = l.map (fun p => (p.1, g p.2)) := by
  induction l with
  | nil => rfl
  | cons p t ih =>
    obtain ⟨q, w⟩ := p
    by_cases hq : q = k
    · subst hq
      simp only [assocGet, if_pos rfl, Option.map_some] at h
      injection h with h
      simp [assocReplace, h]
    · simp only [assocGet, if_neg hq] at h
      simp [assocReplace, hq, ih h]

theorem assocGet_none_of_not_mem {α : Type} (l : List (String × α)) (k : String)
    (h : k ∉ l.map Prod.fst) : assocGet l k = none := by
  induction l with
  | nil => rfl
  | cons p t ih =>
    obtain ⟨q, v⟩ := p
    simp only [List.map_cons, List.mem_cons] at h
    push_neg at h
    have hq : ¬(q = k) := fun e => h.1 e.symm
    simp [assocGet, hq, ih h.2]

theorem assocGet_of_mem_nodup {α : Type} (l : List (String × α)) (k : String) (v : α)
    (hnd : (l.map Prod.fst).Nodup) (hm : (k, v) ∈ l) : assocGet l k = some v := by
  induction l with
  | nil => cases hm
  | cons p t ih =>
    obtain ⟨q, w⟩ := p
    rw [List.map_cons, List.nodup_cons] at hnd
    rcases List.mem_cons.mp hm with h | h
    · obtain ⟨h1, h2⟩ := Prod.mk.injEq k v q w ▸ h
      subst h1
      subst h2
      simp [assocGet]
    · have hq : q ≠ k := by
        rintro rfl
        exact hnd.1 (List.mem_map.mpr ⟨(q, v), h, rfl⟩)
      simp [assocGet, hq, ih hnd.2 h]

theorem assocGet_docShape (d : Doc) (k : String) :
    assocGet (docShape d) k = (assocGet d k).map TopItem.shape := by
  rw [docShape]
  exact assocGet_map TopItem.shape d k

theorem processDep_shape (parse : String → Option GitUrl)
    (resolve : String → VersionSource → Except String String)
    (rewrite : Rewrite) (key : Key) (doc : Doc) (k dn : String) (d' : Doc)
    (h : processDep parse resolve rewrite key doc k dn = some d') :
    docShape d' = docShape doc := by
  unfold processDep at h
  rcases hk : assocGet doc k with _ | item
  · simp only [hk] at h
    cases h
  · simp only [hk] at h
    cases item with
    | nonTable => cases h
    | table t =>
      rcases hd : assocGet t dn with _ | di
      · simp only [hd] at h
        cases h
      · simp only [hd] at h
        cases di with
        | nonInline => cases h
        | inline it =>
          injection h with h
          subst h
          have hinner : (assocReplace t dn (DepItem.inline
              (handle_dependency_state parse resolve dn it rewrite key).1)).map
              (fun p => (p.1, p.2.isInline)) = t.map (fun p => (p.1, p.2.isInline)) :=
            map_assocReplace_of_eq DepItem.isInline t dn (DepItem.inline
              (handle_dependency_state parse resolve dn it rewrite key).1)
              (by rw [hd]; rfl)
          have houter := map_assocReplace_of_eq TopItem.shape doc k
            (TopItem.table (assocReplace t dn (DepItem.inline
              (handle_dependency_state parse resolve dn it rewrite key).1)))
            (by rw [hk]; simp [TopItem.shape, hinner])
          simpa [docShape] using houter

theorem processDep_frame (parse : String → Option GitUrl)
    (resolve : String → VersionSource → Except String String)
    (rewrite : Rewrite) (key : Key) (doc : Doc) (k dn : String) (d' : Doc)
    (h : processDep parse resolve rewrite key doc k dn = some d')
    (k2 dn2 : String) (hne : ¬(k2 = k ∧ dn2 = dn)) :
    slotGet d' k2 dn2 = slotGet doc k2 dn2 := by
  unfold processDep at h
  rcases hk : assocGet doc k with _ | item
  · simp only [hk] at h
    cases h
  · simp only [hk] at h
    cases item with
    | nonTable => cases h
    | table t =>
      rcases hd : assocGet t dn with _ | di
      · simp only [hd] at h
        cases h
      · simp only [hd] at h
        cases di with
        | nonInline => cases h
        | inline it =>
          injection h with h
          subst h
          by_cases hk2 : k2 = k
          · subst hk2
            have hdn2 : dn2 ≠ dn := fun e => hne ⟨rfl, e⟩
            have e1 : assocGet (assocReplace doc k2
                (TopItem.table (assocReplace t dn (DepItem.inline
                  (handle_dependency_state parse resolve dn it rewrite key).1)))) k2
                = some (TopItem.table (assocReplace t dn (DepItem.inline
                  (handle_dependency_state parse resolve dn it rewrite key).1))) :=
              assocGet_replace_same doc k2 _ (TopItem.table t) hk
            have e2 : assocGet (assocReplace t dn (DepItem.inline
                (handle_dependency_state parse resolve dn it rewrite key).1)) dn2
                = assocGet t dn2 :=
              assocGet_replace_ne t dn dn2 _ (fun e => hdn2 e.symm)
            simp only [slotGet, e1, hk, e2]
          · have e1 : assocGet (assocReplace doc k
                (TopItem.table (assocReplace t dn (DepItem.inline
                  (handle_dependency_state parse resolve dn it rewrite key).1)))) k2
                = assocGet doc k2 :=
              assocGet_replace_ne doc k k2 _ (fun e => hk2 e.symm)
            simp only [slotGet, e1]

theorem processDep_success (parse : String → Option GitUrl)
    (resolve : String → VersionSource → Except String String)
    (rewrite : Rewrite) (key : Key) (doc : Doc) (k dn : String)
    (t : List (String × DepItem)) (it : InlineTable)
    (hk : assocGet doc k = some (TopItem.table t))
    (hd : assocGet t dn = some (DepItem.inline it)) :
    ∃ d', processDep parse resolve rewrite key doc k dn = some d' ∧
      slotGet d' k dn = some (DepItem.inline (depOutcome parse resolve rewrite key dn it)) := by
  refine ⟨assocReplace doc k (TopItem.table (assocReplace t dn (DepItem.inline
    (handle_dependency_state parse resolve dn it rewrite key).1))), ?_, ?_⟩
  · unfold processDep
    simp only [hk, hd]
  · have e1 := assocGet_replace_same doc k
      (TopItem.table (assocReplace t dn (DepItem.inline
        (handle_dependency_state parse resolve dn it rewrite key).1))) (TopItem.table t) hk
    have e2 := assocGet_replace_same t dn (DepItem.inline
      (handle_dependency_state parse resolve dn it rewrite key).1) (DepItem.inline it) hd
    simp only [slotGet, e1, e2, depOutcome]

theorem slot_inline_of_shape (d doc : Doc) (hsh : docShape d = docShape doc)
    (k dn : String) (it : InlineTable)
    (h : slotGet doc k dn = some (DepItem.inline it)) :
    ∃ t' it', assocGet d k = some (TopItem.table t') ∧
      assocGet t' dn = some (DepItem.inline it') := by
  rcases hk : assocGet doc k with _ | item
  · simp only [slotGet, hk] at h
    cases h
  cases item with
  | nonTable =>
    simp only [slotGet, hk] at h
    cases h
  | table t =>
    simp only [slotGet, hk] at h
    have hmap : (assocGet d k).map TopItem.shape = (assocGet doc k).map TopItem.shape := by
      rw [← assocGet_docShape, ← assocGet_docShape, hsh]
    rw [hk] at hmap
    rcases hk' : assocGet d k with _ | item'
    · rw [hk'] at hmap
      cases hmap
    rw [hk'] at hmap
    cases item' with
    | nonTable =>
      simp [TopItem.shape] at hmap
    | table t' =>
      simp only [Option.map, TopItem.shape] at hmap
      injection hmap with hmap
      injection hmap with hmap
      have hinner : (assocGet t' dn).map DepItem.isInline
          = (assocGet t dn).map DepItem.isInline := by
        rw [← assocGet_map DepItem.isInline t' dn, ← assocGet_map DepItem.isInline t dn, hmap]
      rw [h] at hinner
      rcases hd' : assocGet t' dn with _ | di
      · rw [hd'] at hinner
        cases hinner
      rw [hd'] at hinner
      cases di with
      | nonInline =>
        simp [DepItem.isInline] at hinner
      | inline it' => exact ⟨t', it', rfl, hd'⟩

theorem slot_of_eligible (doc : Doc) (hWF : WFDoc doc) (k dn : String)
    (h : (k, dn) ∈ eligibleEntries doc) :
    ∃ it, slotGet doc k dn = some (DepItem.inline it) := by
  obtain ⟨p, hp, hmem⟩ := List.mem_flatMap.mp h
  by_cases hdep : strContains p.1 "dependencies" = true
  · rw [if_pos hdep] at hmem
    rcases hpi : p.2 with t | _
    · rw [hpi] at hmem
      obtain ⟨q, hq, heq⟩ := List.mem_map.mp hmem
      obtain ⟨hq1, hq2⟩ := List.mem_filter.mp hq
      cases heq
      obtain ⟨pk, pv⟩ := p
      simp only at hpi
      subst hpi
      have hk : assocGet doc pk = some (TopItem.table t) :=
        assocGet_of_mem_nodup doc pk (TopItem.table t) hWF.1 hp
      have hnd : (t.map Prod.fst).Nodup := hWF.2 pk t hk
      rcases hq2i : q.2 with qt | _
      · refine ⟨qt, ?_⟩
        have hd : assocGet t q.1 = some (DepItem.inline qt) := by
          have : (q.1, q.2) ∈ t := by
            obtain ⟨a, b⟩ := q
            exact hq1
          rw [hq2i] at this
          exact assocGet_of_mem_nodup t q.1 (DepItem.inline qt) hnd this
        rw [slotGet, hk]
        exact hd
      · rw [hq2i, DepItem.isInline] at hq2
        cases hq2
    · rw [hpi] at hmem
      cases hmem
  · rw [if_neg hdep] at hmem
    cases hmem

theorem mem_eligible_fst (doc : Doc) (k dn : String)
    (h : (k, dn) ∈ eligibleEntries doc) : k ∈ doc.map Prod.fst := by
  obtain ⟨p, hp, hmem⟩ := List.mem_flatMap.mp h
  by_cases hdep : strContains p.1 "dependencies" = true
  · rw [if_pos hdep] at hmem
    rcases hpi : p.2 with t | _
    · rw [hpi] at hmem
      obtain ⟨q, _, heq⟩ := List.mem_map.mp hmem
      cases heq
      exact List.mem_map.mpr ⟨p, hp, rfl⟩
    · rw [hpi] at hmem
      cases hmem
  · rw [if_neg hdep] at hmem
    cases hmem

theorem eligibleEntries_nodup (doc : Doc) :
    (doc.map Prod.fst).Nodup →
    (∀ k t, assocGet doc k = some (TopItem.table t) → (t.map Prod.fst).Nodup) →
    (eligibleEntries doc).Nodup := by
  induction doc with
  | nil => intro _ _; exact List.Pairwise.nil
  | cons p rest ih =>
    intro hnd hin
    obtain ⟨pk, pv⟩ := p
    rw [List.map_cons, List.nodup_cons] at hnd
    have hinrest : ∀ k t, assocGet rest k = some (TopItem.table t) →
        (t.map Prod.fst).Nodup := by
      intro k t hk
      apply hin k t
      by_cases hpk : pk = k
      · subst hpk
        rw [assocGet_none_of_not_mem rest pk hnd.1] at hk
        cases hk
      · simpa [assocGet, hpk] using hk
    have hrest : (eligibleEntries rest).Nodup := ih hnd.2 hinrest
    have hsplit : eligibleEntries ((pk, pv) :: rest) =
        (if strContains pk "dependencies" then
          match pv with
          | TopItem.table t =>
            (t.filter (fun q => q.2.isInline)).map (fun q => (pk, q.1))
          | TopItem.nonTable => []
        else []) ++ eligibleEntries rest := by
      rw [eligibleEntries, eligibleEntries, List.flatMap_cons]
    rw [hsplit, List.nodup_append]
    refine ⟨?_, hrest, ?_⟩
    · by_cases hdep : strContains pk "dependencies" = true
      · rw [if_pos hdep]
        cases pv with
        | nonTable => exact List.Pairwise.nil
        | table t =>
          show ((t.filter (fun q => q.2.isInline)).map (fun q => (pk, q.1))).Nodup
          have hkey : assocGet ((pk, TopItem.table t) :: rest) pk
              = some (TopItem.table t) := by simp [assocGet]
          have htnd := hin pk t hkey
          have hfilter : ((t.filter (fun q => q.2.isInline)).map Prod.fst).Nodup :=
            List.Nodup.sublist (List.Sublist.map Prod.fst (List.filter_sublist t)) htnd
          have hcomp : (t.filter (fun q => q.2.isInline)).map (fun q => (pk, q.1))
              = ((t.filter (fun q => q.2.isInline)).map Prod.fst).map
                  (fun x => (pk, x)) := by
            rw [List.map_map]
            rfl
          rw [hcomp]
          exact List.Nodup.map (fun a b hab => by injection hab) hfilter
      · rw [if_neg hdep]
        exact List.Pairwise.nil
    · intro a ha hb
      by_cases hdep : strContains pk "dependencies" = true
      · rw [if_pos hdep] at ha
        cases pv with
        | nonTable => cases ha
        | table t =>
          have ha' : a ∈ (t.filter (fun q => q.2.isInline)).map (fun q => (pk, q.1)) := ha
          obtain ⟨q, _, heq⟩ := List.mem_map.mp ha'
          subst heq
          exact hnd.1 (mem_eligible_fst rest pk q.1 hb)
      · rw [if_neg hdep] at ha
        cases ha

theorem processEntries_spec (parse : String → Option GitUrl)
    (resolve : String → VersionSource → Except String String)
    (rewrite : Rewrite) (key : Key) (doc : Doc) (hWF : WFDoc doc) :
    ∀ (pending : List (String × String)) (d : Doc),
      pending.Nodup →
      (∀ q ∈ pending, q ∈ eligibleEntries doc) →
      docShape d = docShape doc →
      (∀ q ∈ pending, slotGet d q.1 q.2 = slotGet doc q.1 q.2) →
      ∃ d', processEntries parse resolve rewrite key d pending = some d' ∧
        docShape d' = docShape doc ∧
        (∀ q ∈ pending, ∀ it, slotGet doc q.1 q.2 = some (DepItem.inline it) →
          slotGet d' q.1 q.2
            = some (DepItem.inline (depOutcome parse resolve rewrite key q.2 it))) ∧
        (∀ q, q ∉ pending → slotGet d' q.1 q.2 = slotGet d q.1 q.2) := by
  intro pending
  induction pending with
  | nil =>
    intro d _ _ hsh _
    exact ⟨d, rfl, hsh, fun q hq => absurd hq (List.not_mem_nil q), fun q _ => rfl⟩
  | cons p ps ih =>
    intro d hndp hel hsh hslot
    rw [List.nodup_cons] at hndp
    obtain ⟨it0, hit0⟩ := slot_of_eligible doc hWF p.1 p.2
      (by simpa using hel p (List.mem_cons_self p ps))
    have hcur : slotGet d p.1 p.2 = some (DepItem.inline it0) := by
      rw [hslot p (List.mem_cons_self p ps), hit0]
    rcases hk : assocGet d p.1 with _ | item
    · simp only [slotGet, hk] at hcur
      cases hcur
    · cases item with
      | nonTable =>
        simp only [slotGet, hk] at hcur
        cases hcur
      | table t =>
        simp only [slotGet, hk] at hcur
        obtain ⟨d1, hd1, hslot1⟩ :=
          processDep_success parse resolve rewrite key d p.1 p.2 t it0 hk hcur
        have hsh1 : docShape d1 = docShape doc :=
          (processDep_shape parse resolve rewrite key d p.1 p.2 d1 hd1).trans hsh
        have hne : ∀ q ∈ ps, ¬(q.1 = p.1 ∧ q.2 = p.2) := by
          intro q hq ⟨e1, e2⟩
          exact hndp.1 (Prod.ext_iff.mpr ⟨e1.symm, e2.symm⟩ ▸ hq)
        have hslotps : ∀ q ∈ ps, slotGet d1 q.1 q.2 = slotGet doc q.1 q.2 := by
          intro q hq
          rw [processDep_frame parse resolve rewrite key d p.1 p.2 d1 hd1 q.1 q.2 (hne q hq)]
          exact hslot q (List.mem_cons_of_mem p hq)
        obtain ⟨d'', hrun, hsh'', hdone, hframe⟩ := ih d1 hndp.2
          (fun q hq => hel q (List.mem_cons_of_mem p hq)) hsh1 hslotps
        have hstep : processEntries parse resolve rewrite key d (p :: ps)
            = processEntries parse resolve rewrite key d1 ps := by
          simp only [processEntries, hd1]
        refine ⟨d'', hstep.trans hrun, hsh'', ?_, ?_⟩
        · intro q hq it hit
          rcases List.mem_cons.mp hq with rfl | hq'
          · rw [hit0] at hit
            injection hit with hit
            injection hit with hit
            subst hit
            rw [hframe q hndp.1]
            exact hslot1
          · exact hdone q hq' it hit
        · intro q hq
          have hq1 : q ∉ ps := fun e => hq (List.mem_cons_of_mem p e)
          have hq2 : ¬(q.1 = p.1 ∧ q.2 = p.2) := by
            intro ⟨e1, e2⟩
            exact hq (Prod.ext_iff.mpr ⟨e1, e2⟩ ▸ List.mem_cons_self p ps)
          rw [hframe q hq1]
          exact processDep_frame parse resolve rewrite key d p.1 p.2 d1 hd1 q.1 q.2 hq2

/-! ## C7 and C10: the manifest processor -/

/-- **C7.** For every document that parses (modelled post-parse) and is
well-formed, the processor never aborts because of a per-dependency
rewriter failure: it returns the written-back document, and every
eligible entry ends at the state its own `handle_dependency` call
leaves it in, independently of failures on other entries — the
rewritten table when the call succeeds; when the call fails (only a
Version-key resolution can fail) the failure is logged and the entry is
written back with the in-place mutations performed before the failure,
i.e. with its `version` and `path` fields removed. -/
theorem toml_file_failures_do_not_abort (parse : String → Option GitUrl)
    (resolve : String → VersionSource → Except String String)
    (rewrite : Rewrite) (key : Key) (doc : Doc) (hWF : WFDoc doc) :
    ∃ doc', handle_toml_file parse resolve rewrite key doc = some doc' ∧
      ∀ q ∈ eligibleEntries doc, ∀ it,
        slotGet doc q.1 q.2 = some (DepItem.inline it) →
        (∀ it', handle_dependency parse resolve q.2 it rewrite key = Except.ok it' →
          slotGet doc' q.1 q.2 = some (DepItem.inline it')) ∧
        (∀ e, handle_dependency parse resolve q.2 it rewrite key = Except.error e →
          slotGet doc' q.1 q.2 = some (DepItem.inline
            (tremove (tremove it "version") "path"))) := by
  obtain ⟨d', h1, _, h3, _⟩ := processEntries_spec parse resolve rewrite key doc hWF
    (eligibleEntries doc) doc (eligibleEntries_nodup doc hWF.1 hWF.2)
    (fun _ hq => hq) rfl (fun _ _ => rfl)
  refine ⟨d', h1, ?_⟩
  intro q hq it hit
  have hslot := h3 q hq it hit
  constructor
  · intro it' hok
    rw [hslot, depOutcome,
      handle_dependency_ok_state parse resolve q.2 it rewrite key it' hok]
  · intro e herr
    rw [hslot, depOutcome,
      handle_dependency_error_state parse resolve q.2 it rewrite key e herr]

/-- **C10.** The `expect` on `as_inline_table_mut` never panics: for
every well-formed document, every entry selected by filtering on
`as_inline_table` in the cloned document is still an inline table when
re-indexed mutably in the live document, so the whole run produces a
document (`isSome`) instead of the modelled panic (`none`). -/
theorem as_inline_table_expect_never_panics (parse : String → Option GitUrl)
    (resolve : String → VersionSource → Except String String)
    (rewrite : Rewrite) (key : Key) (doc : Doc) (hWF : WFDoc doc) :
    (handle_toml_file parse resolve rewrite key doc).isSome = true := by
  obtain ⟨d', h1, _, _, _⟩ := processEntries_spec parse resolve rewrite key doc hWF
    (eligibleEntries doc) doc (eligibleEntries_nodup doc hWF.1 hWF.2)
    (fun _ hq => hq) rfl (fun _ _ => rfl)
  rw [handle_toml_file, h1]
  rfl

/-- A small concrete manifest document used by the witnesses: one
dependency table with two inline-table entries. -/
def exampleDoc : Doc :=
  [("dependencies", TopItem.table
    [("a", DepItem.inline [("version", strVal "1" " " " ")]),
     ("b", DepItem.inline [("version", strVal "1" " " " ")])])]

/-- A resolver that succeeds for package `a` and fails for `b`. -/
def exampleResolve : String → VersionSource → Except String String :=
  fun p _ => if p = "a" then Except.ok "2.0.0" else Except.error "nf"

theorem exampleDoc_wf : WFDoc exampleDoc := by
  constructor
  · decide
  · intro k t h
    by_cases hk : "dependencies" = k
    · simp only [exampleDoc, assocGet, if_pos hk] at h
      injection h with h
      injection h with h
      subst h
      decide
    · simp only [exampleDoc, assocGet, if_neg hk] at h
      cases h

/-- C7 witness: one entry resolves, the other fails; the run still
writes back, with the succeeding entry rewritten and the failing entry
stripped of `version`/`path`. -/
theorem toml_file_failures_do_not_abort_witness :
    ∃ doc', handle_toml_file (fun _ => none) exampleResolve Rewrite.All
        (Key.Version VersionSource.CratesIO) exampleDoc = some doc' ∧
      ∀ q ∈ eligibleEntries exampleDoc, ∀ it,
        slotGet exampleDoc q.1 q.2 = some (DepItem.inline it) →
        (∀ it', handle_dependency (fun _ => none) exampleResolve q.2 it Rewrite.All
            (Key.Version VersionSource.CratesIO) = Except.ok it' →
          slotGet doc' q.1 q.2 = some (DepItem.inline it')) ∧
        (∀ e, handle_dependency (fun _ => none) exampleResolve q.2 it Rewrite.All
            (Key.Version VersionSource.CratesIO) = Except.error e →
          slotGet doc' q.1 q.2 = some (DepItem.inline
            (tremove (tremove it "version") "path"))) :=
  toml_file_failures_do_not_abort (fun _ => none) exampleResolve Rewrite.All
    (Key.Version VersionSource.CratesIO) exampleDoc exampleDoc_wf

/-- C10 witness: the run on the concrete document never hits the
modelled panic. -/
theorem as_inline_table_expect_never_panics_witness :
    (handle_toml_file (fun _ => none) (fun _ _ => Except.error "nf") Rewrite.All
      (Key.Branch "x") exampleDoc).isSome = true :=
  as_inline_table_expect_never_panics (fun _ => none) (fun _ _ => Except.error "nf")
    Rewrite.All (Key.Branch "x") exampleDoc exampleDoc_wf

end Diener
